import Mathlib

/-!
Shallow embedding of the Philote-JuliaServer core (namespace philote::julia)
for verification of its cross-runtime data-marshaling layer, exception
bridge, single-threaded executor and thread-adoption guard.

Sources embedded:
* src/include/julia_convert.h — VariablesToJuliaDict, JuliaDictToVariables,
  JuliaDictToPartials, CheckJuliaException, GetJuliaExceptionString
* src/src/julia_executor.cpp — JuliaRuntime::EvalString,
  JuliaExecutor::ExecutorLoop / Submit / Stop
* src/unnamed/part_007 — JuliaThreadGuard

Doubles are modeled by an arbitrary type `α`: the marshaling code only
moves values between buffers (no arithmetic), so every statement below is
parametric in the payload, which also covers NaN and infinities as
opaque, bit-identical values.
-/

namespace PhiloteJulia

/-- Role attribute of a philote::Variable (Philote-Cpp data model):
input or output. -/
inductive Role where
  | kInput
  | kOutput
deriving DecidableEq, Repr

/-- philote::Variable — a named, shaped, flat-packed array (row-major on
the native side).  `data` is the owned buffer of doubles, modeled
parametrically. -/
structure Variable (α : Type) where
  role : Role
  shape : List Nat
  data : List α
deriving DecidableEq, Repr

/-- Variable::Size() — element count, the product of the shape dims. -/
def Variable.size {α : Type} (v : Variable α) : Nat := v.shape.prod

/-- Native element access `var(i)` at a flat row-major index. -/
def Variable.get {α : Type} [Inhabited α] (v : Variable α) (i : Nat) : α :=
  v.data.getD i default

/-- A Julia `Array{Float64}` as seen across the FFI boundary: the julia
dims (`jl_array_ndims` / `jl_array_dim`) and the flat column-major buffer
(`jl_array_data`). -/
structure JuliaArray (α : Type) where
  shape : List Nat
  data : List α
deriving DecidableEq, Repr

/-- Managed element access `jl_data[p]` at a flat index. -/
def JuliaArray.get {α : Type} [Inhabited α] (a : JuliaArray α) (p : Nat) : α :=
  a.data.getD p default

/-- The copy loop of VariablesToJuliaDict (julia_convert.h lines 214-233):
1-D arrays copy directly; a 2-D array with extents `rows × cols` is filled
by the double loop `jl_data[j * rows + i] = var(i * cols + j)`
(`i < rows`, `j < cols`), rendered here position-wise (position
`p = j * rows + i` has `i = p % rows`, `j = p / rows`); for dimensionality
other than 1 or 2 the source does a direct copy over `total_size`. -/
def copyToJulia {α : Type} [Inhabited α] (v : Variable α) : List α :=
  match v.shape with
  | [_] => (List.range v.size).map (fun i => v.get i)
  | [rows, cols] =>
      (List.range (rows * cols)).map
        (fun p => v.get ((p % rows) * cols + p / rows))
  | _ => (List.range v.size).map (fun i => v.get i)

/-- One entry of VariablesToJuliaDict: allocate the julia array, run the
copy loop, and (for multi-dimensional variables) reshape the flat array to
the variable's true shape (julia_convert.h lines 192-249). -/
def VariableToJuliaArray {α : Type} [Inhabited α] (v : Variable α) :
    JuliaArray α :=
  { shape := v.shape, data := copyToJulia v }

/-- VariablesToJuliaDict (julia_convert.h lines 161-260): iterate the
native map in order and `setindex!` each converted array under the
variable's name.  philote::Variables is modeled as an association list
with unique keys. -/
def VariablesToJuliaDict {α : Type} [Inhabited α]
    (vars : List (String × Variable α)) : List (String × JuliaArray α) :=
  vars.map (fun p => (p.1, VariableToJuliaArray p.2))

/-- The read-back copy loop shared by JuliaDictToVariables (lines 323-343)
and JuliaDictToPartials (lines 440-456): the Variable is constructed with
role kOutput (lines 321 and 436); 1-D and ≥3-D data copy directly over
`jl_array_len`, and 2-D data is transposed back by
`var(i * cols + j) = jl_data[j * rows + i]` (position `q = i * cols + j`
has `i = q / cols`, `j = q % cols`). -/
def JuliaArrayToVariable {α : Type} [Inhabited α] (a : JuliaArray α) :
    Variable α :=
  { role := Role.kOutput
    shape := a.shape
    data :=
      match a.shape with
      | [rows, cols] =>
          (List.range (rows * cols)).map
            (fun q => a.get ((q % cols) * rows + q / cols))
      | _ => (List.range a.data.length).map (fun i => a.get i) }

/-- JuliaDictToVariables (julia_convert.h lines 262-349): enumerate the
dict keys and convert every value. -/
def JuliaDictToVariables {α : Type} [Inhabited α]
    (dict : List (String × JuliaArray α)) : List (String × Variable α) :=
  dict.map (fun p => (p.1, JuliaArrayToVariable p.2))

/-- Error raised by JuliaDictToPartials when a key lacks the `~`
delimiter (julia_convert.h lines 393-396): the spec's MalformedKey. -/
inductive ConvError where
  | malformedKey (key : String)
deriving DecidableEq, Repr

/-- `encoded_key.find('~')` followed by `substr(0, pos)` /
`substr(pos + 1)` (julia_convert.h lines 393-399): `none` when the key has
no tilde, otherwise the part before the FIRST tilde and the entire
remainder after it. -/
def splitFirstTilde : List Char → Option (List Char × List Char)
  | [] => none
  | c :: rest =>
      if c = '~' then some ([], rest)
      else
        match splitFirstTilde rest with
        | some (p, s) => some (c :: p, s)
        | none => none

/-- Parse one partials key `"output~input"`; absence of the delimiter is
the MalformedKey error (julia_convert.h lines 392-399). -/
def parsePartialKey (key : String) :
    Except ConvError (String × String) :=
  match splitFirstTilde key.data with
  | none => Except.error (ConvError.malformedKey key)
  | some (p, s) => Except.ok (String.mk p, String.mk s)

/-- JuliaDictToPartials (julia_convert.h lines 351-464): iterate the dict
keys in order; each key is parsed as `"output~input"` (throwing
MalformedKey at the first key lacking the delimiter) and each value is
converted to a Variable exactly as in JuliaDictToVariables, with role
kOutput (line 436). -/
def JuliaDictToPartials {α : Type} [Inhabited α]
    (dict : List (String × JuliaArray α)) :
    Except ConvError (List ((String × String) × Variable α)) :=
  match dict with
  | [] => Except.ok []
  | (key, a) :: rest =>
      match parsePartialKey key with
      | Except.error e => Except.error e
      | Except.ok oi =>
          match JuliaDictToPartials rest with
          | Except.error e => Except.error e
          | Except.ok tail =>
              Except.ok ((oi, JuliaArrayToVariable a) :: tail)

/-! ## Exception bridge (julia_convert.h lines 102-159) -/

/-- A pending Julia exception, identified by its type name
(`jl_typeof_str`). -/
structure JuliaExc where
  typeName : String
deriving DecidableEq, Repr

/-- The embedded runtime's exception-occurred state:
`jl_exception_occurred()` returns the pending exception or null;
`jl_exception_clear()` resets it to none. -/
structure JuliaState where
  pending : Option JuliaExc
deriving DecidableEq, Repr

/-- Possible results of `jl_call2(sprint, showerror, ex)`: a Julia string,
a non-string value, or a fault of the formatter itself (which sets a new
pending exception). -/
inductive SprintOutcome where
  | ok (s : String)
  | nonString
  | fault (e : JuliaExc)
deriving DecidableEq, Repr

/-- Runtime-environment facts the bridge depends on: whether
`jl_get_function(jl_base_module, ...)` finds `sprint` and `showerror`, and
how `sprint(showerror, ex)` behaves on each exception. -/
structure JuliaEnv where
  sprintAvailable : Bool
  sprintShowerror : JuliaExc → SprintOutcome

/-- GetJuliaExceptionString (julia_convert.h lines 110-159).  Returns the
diagnostic string and the resulting exception state:
* no pending exception: the fixed fallback text, state untouched;
* formatter functions unavailable: the bare type name, state untouched
  (no clear happens on this path);
* otherwise the state is cleared before calling `sprint(showerror, ex)`;
  if that call faults, the new pending exception is cleared and the bare
  type name is returned; a non-string result also falls back to the type
  name; a string result is returned verbatim. -/
def GetJuliaExceptionString (env : JuliaEnv) (st : JuliaState) :
    String × JuliaState :=
  match st.pending with
  | none => ("Unknown Julia exception", st)
  | some ex =>
      let msg := ex.typeName
      if env.sprintAvailable then
        match env.sprintShowerror ex with
        | SprintOutcome.fault _ => (msg, { pending := none })
        | SprintOutcome.nonString => (msg, { pending := none })
        | SprintOutcome.ok s => (s, { pending := none })
      else
        (msg, st)

/-- CheckJuliaException (julia_convert.h lines 102-108): a no-op when no
exception is pending; otherwise it builds the diagnostic, clears the
exception state (`jl_exception_clear()` — "Clear exception for next
call"), and throws a runtime error carrying the diagnostic. -/
def CheckJuliaException (env : JuliaEnv) (st : JuliaState) :
    Except String Unit × JuliaState :=
  match st.pending with
  | none => (Except.ok (), st)
  | some _ =>
      let msg := (GetJuliaExceptionString env st).1
      (Except.error msg, { pending := none })

/-! ## JuliaRuntime::EvalString (julia_executor.cpp lines 175-191) -/

/-- Behavior of `jl_eval_string(code)`: either a value (modeled by an
identifier) or a raised Julia exception, which the eval leaves as the
pending exception state. -/
inductive JlEvalOutcome where
  | value (v : Nat)
  | raises (e : JuliaExc)
deriving DecidableEq, Repr

/-- JuliaRuntime::EvalString: fails when the runtime was not started;
otherwise runs `jl_eval_string` and, if an exception occurred, throws
`"Julia error: " ++ type name`.  The source contains NO
`jl_exception_clear()` on this path, so the raised exception stays
pending in the returned state. -/
def EvalString (isInit : Bool) (st : JuliaState) (outcome : JlEvalOutcome) :
    Except String Nat × JuliaState :=
  if isInit then
    match outcome with
    | JlEvalOutcome.value v => (Except.ok v, st)
    | JlEvalOutcome.raises e =>
        (Except.error ("Julia error: " ++ e.typeName), { pending := some e })
  else
    (Except.error "Julia runtime not initialized", st)

/-! ## Single-threaded executor
(julia_executor.h lines 1001-1026, julia_executor.cpp lines 21-79)

A closure submitted through `Submit` is modeled by its evaluation result:
`Except.ok v` for a normal return, `Except.error e` for a thrown
exception. -/

/-- The wrapper Submit pushes onto the queue (julia_executor.h lines
1010-1021): run the task inside try/catch, `promise.set_value` on normal
return, `promise.set_exception(std::current_exception())` on a throw.
The published channel content is the task's own outcome, and the wrapper
itself never lets an exception escape (it is a total function). -/
def taskWrapper {ε α : Type} (task : Except ε α) : Except ε α :=
  match task with
  | Except.ok v => Except.ok v
  | Except.error e => Except.error e

/-- `future.get()` at the end of Submit (julia_executor.h line 1025):
yields the stored value, or rethrows the stored exception in the calling
thread's context. -/
def futureGet {ε α : Type} (r : Except ε α) : Except ε α := r

/-- The caller-visible result of Submit once the executor has run the
wrapped task. -/
def submitResult {ε α : Type} (task : Except ε α) : Except ε α :=
  futureGet (taskWrapper task)

/-- State of the executor loop: the FIFO task queue (front first), the
stop flag (set by Stop(), julia_executor.cpp lines 21-31), the results
published to the tasks' promises in execution order, and whether the
worker has left ExecutorLoop. -/
structure ExecState (ε α : Type) where
  queue : List (Except ε α)
  stop : Bool
  published : List (Except ε α)
  exited : Bool
deriving Repr

/-- One iteration of ExecutorLoop (julia_executor.cpp lines 47-77):
* `exit`: `if (stop_ && task_queue_.empty()) break;` — the worker leaves
  the loop only when the stop flag is set AND the queue is empty;
* `run`: otherwise, with a task at the front, pop it (FIFO) and execute
  it synchronously to completion, publishing the wrapper's result.  The
  wrapper is total, so the loop's own catch-and-rethrow (lines 72-75)
  never fires and the worker never dies from a task exception.
When the queue is empty and stop is unset the worker blocks in
`cv_.wait` — no transition. -/
inductive ExecStep {ε α : Type} : ExecState ε α → ExecState ε α → Prop where
  | exit (s : ExecState ε α) :
      s.exited = false → s.stop = true → s.queue = [] →
      ExecStep s { s with exited := true }
  | run (s : ExecState ε α) (t : Except ε α) (rest : List (Except ε α)) :
      s.exited = false → s.queue = t :: rest →
      ExecStep s
        { s with
            queue := rest
            published := s.published ++ [taskWrapper t] }

/-! ## JuliaThreadGuard (src/unnamed/part_007 lines 158-173) -/

/-- Per-thread adoption state: the `thread_local bool adopted_` flag and
an instrumentation counter of `jl_adopt_thread()` invocations. -/
structure ThreadAdoptState where
  adopted : Bool
  adoptCalls : Nat
deriving DecidableEq, Repr

/-- JuliaThreadGuard::AdoptCurrentThread: `jl_adopt_thread(); adopted_ =
true;`. -/
def AdoptCurrentThread (s : ThreadAdoptState) : ThreadAdoptState :=
  { adopted := true, adoptCalls := s.adoptCalls + 1 }

/-- The JuliaThreadGuard constructor: `if (!adopted_)
AdoptCurrentThread();`. -/
def JuliaThreadGuardCtor (s : ThreadAdoptState) : ThreadAdoptState :=
  if s.adopted then s else AdoptCurrentThread s

/-- JuliaThreadGuard::IsAdopted: returns the thread-local flag. -/
def IsAdopted (s : ThreadAdoptState) : Bool := s.adopted

/-- Initial state of a fresh thread: `thread_local bool
JuliaThreadGuard::adopted_ = false;` and no registrations yet. -/
def freshThread : ThreadAdoptState := { adopted := false, adoptCalls := 0 }

/-! ## Helper lemmas -/

/-- Reading every position of a list back through `getD` reproduces the
list. -/
lemma getD_range_self {α : Type} [Inhabited α] (l : List α) :
    (List.range l.length).map (fun i => l.getD i default) = l := by
  apply List.ext_getElem
  · simp
  · intro i h1 h2
    simp only [List.getElem_map, List.getElem_range]
    exact List.getD_eq_getElem l default h2

/-- `getD` on a map over `List.range` evaluates the function at
in-range positions. -/
lemma getD_map_range {α : Type} [Inhabited α] (f : Nat → α) {n p : Nat}
    (h : p < n) :
    ((List.range n).map f).getD p default = f p := by
  have hlen : p < ((List.range n).map f).length := by simpa using h
  rw [List.getD_eq_getElem _ default hlen]
  simp

/-- A flat column-major position `j * rows + i` with `i < rows` decomposes
back into its coordinates by `% rows` and `/ rows`. -/
lemma flat_index_decomp {i j rows : Nat} (hi : i < rows) :
    (j * rows + i) % rows = i ∧ (j * rows + i) / rows = j := by
  have hpos : 0 < rows := Nat.lt_of_le_of_lt (Nat.zero_le i) hi
  constructor
  · rw [Nat.add_comm, Nat.add_mul_mod_self_right]
    exact Nat.mod_eq_of_lt hi
  · rw [Nat.add_comm, Nat.add_mul_div_right i j hpos, Nat.div_eq_of_lt hi,
      Nat.zero_add]

/-- A flat position built from in-range 2-D coordinates is in range. -/
lemma flat_index_lt {i j rows cols : Nat} (hi : i < rows) (hj : j < cols) :
    j * rows + i < rows * cols := by
  have h1 : j * rows + i < (j + 1) * rows := by
    rw [Nat.succ_mul]
    omega
  have h2 : (j + 1) * rows ≤ cols * rows :=
    Nat.mul_le_mul_right rows hj
  calc j * rows + i < (j + 1) * rows := h1
    _ ≤ cols * rows := h2
    _ = rows * cols := Nat.mul_comm cols rows

/-- The per-variable round trip for a well-formed 1-D variable: shape and
data survive unchanged (role is rebuilt as kOutput by the decoder). -/
lemma roundtrip_oneD {α : Type} [Inhabited α] (v : Variable α) (k : Nat)
    (hs : v.shape = [k]) (hl : v.data.length = k) :
    (JuliaArrayToVariable (VariableToJuliaArray v)).shape = v.shape ∧
    (JuliaArrayToVariable (VariableToJuliaArray v)).data = v.data := by
  obtain ⟨role, shape, data⟩ := v
  simp only at hs hl
  subst hs
  have hdata : copyToJulia (⟨role, [k], data⟩ : Variable α) = data := by
    simp only [copyToJulia, Variable.size]
    have hk : ([k] : List Nat).prod = k := by simp
    rw [hk, ← hl]
    exact getD_range_self data
  have h1 : VariableToJuliaArray (⟨role, [k], data⟩ : Variable α)
      = ⟨[k], data⟩ := by
    simp only [VariableToJuliaArray, hdata]
  rw [h1]
  refine ⟨rfl, ?_⟩
  show (List.range data.length).map (fun i => List.getD data i default) = data
  exact getD_range_self data

/-! ## C1 -/

/-- C1: for every 2-dimensional variable the managed-layout conversion
writes `managed[col * rows + row] = native[row * cols + col]`, converting
back applies the inverse `native[row * cols + col] =
managed[col * rows + row]`, and the 2×3 variable populated row-major with
[1,2,3,4,5,6] round-trips through ToManagedDict/FromManagedDict to the
identical flat row-major sequence with shape (2,3). -/
theorem c1_twoD_transpose_roundtrip :
    (∀ (α : Type) (_inst : Inhabited α) (v : Variable α) (rows cols : Nat),
      v.shape = [rows, cols] → ∀ i j, i < rows → j < cols →
        (VariableToJuliaArray v).get (j * rows + i) = v.get (i * cols + j)) ∧
    (∀ (α : Type) (_inst : Inhabited α) (a : JuliaArray α) (rows cols : Nat),
      a.shape = [rows, cols] → ∀ i j, i < rows → j < cols →
        (JuliaArrayToVariable a).get (i * cols + j) = a.get (j * rows + i)) ∧
    (∃ w : Variable Int,
      (JuliaDictToVariables (VariablesToJuliaDict
          [("A", ⟨Role.kInput, [2, 3], [1, 2, 3, 4, 5, 6]⟩)])).lookup "A"
        = some w ∧ w.shape = [2, 3] ∧ w.data = [1, 2, 3, 4, 5, 6]) := by
  refine ⟨?_, ?_, ?_⟩
  · intro α _inst v rows cols hs i j hi hj
    obtain ⟨role, shape, data⟩ := v
    simp only at hs
    subst hs
    simp only [VariableToJuliaArray, JuliaArray.get, copyToJulia]
    rw [getD_map_range _ (flat_index_lt hi hj)]
    rw [(flat_index_decomp (j := j) hi).1, (flat_index_decomp (j := j) hi).2]
  · intro α _inst a rows cols hs i j hi hj
    obtain ⟨shape, data⟩ := a
    simp only at hs
    subst hs
    simp only [JuliaArrayToVariable, Variable.get]
    have hlt : i * cols + j < rows * cols := by
      have := flat_index_lt hj hi
      calc i * cols + j < cols * rows := this
        _ = rows * cols := Nat.mul_comm cols rows
    rw [getD_map_range _ hlt]
    rw [(flat_index_decomp (j := i) hj).1, (flat_index_decomp (j := i) hj).2]
  · exact ⟨⟨Role.kOutput, [2, 3], [1, 2, 3, 4, 5, 6]⟩, by decide, rfl, rfl⟩

/-- C1 witness: the transpose write rule evaluated at the 2×3 example,
row 0, column 1 — the managed buffer position `1 * 2 + 0` holds native
element `0 * 3 + 1`. -/
theorem c1_twoD_transpose_roundtrip_witness :
    (VariableToJuliaArray
        (⟨Role.kInput, [2, 3], [1, 2, 3, 4, 5, 6]⟩ : Variable Int)).get
        (1 * 2 + 0)
      = (⟨Role.kInput, [2, 3], [1, 2, 3, 4, 5, 6]⟩ : Variable Int).get
        (0 * 3 + 1) :=
  c1_twoD_transpose_roundtrip.1 Int inferInstance
    ⟨Role.kInput, [2, 3], [1, 2, 3, 4, 5, 6]⟩ 2 3 rfl 0 1
    (by decide) (by decide)

/-! ## C2 -/

/-- C2: for every VariableMap whose variables are all 1-dimensional
(scalars stored as length-1 arrays included) with arbitrary element
values — the payload type is parametric, so 0, negatives, large
magnitudes, NaN and Infinity are all covered as opaque values —
FromManagedDict (ToManagedDict v) equals v element-wise and shape-wise:
every name maps to a variable of the same shape with identical elements,
and absent names stay absent. -/
theorem c2_oneD_roundtrip {α : Type} [Inhabited α]
    (vars : List (String × Variable α))
    (hwf : ∀ p ∈ vars, ∃ k, p.2.shape = [k] ∧ p.2.data.length = k)
    (name : String) :
    (vars.lookup name = none →
      (JuliaDictToVariables (VariablesToJuliaDict vars)).lookup name
        = none) ∧
    (∀ v, vars.lookup name = some v →
      ∃ w, (JuliaDictToVariables (VariablesToJuliaDict vars)).lookup name
          = some w ∧ w.shape = v.shape ∧ w.data = v.data) := by
  induction vars with
  | nil => simp [VariablesToJuliaDict, JuliaDictToVariables]
  | cons head tail ih =>
    obtain ⟨n', v'⟩ := head
    have hwfh := hwf (n', v') (List.mem_cons_self _ _)
    have hwft : ∀ p ∈ tail, ∃ k, p.2.shape = [k] ∧ p.2.data.length = k :=
      fun p hp => hwf p (List.mem_cons_of_mem _ hp)
    simp only [VariablesToJuliaDict, JuliaDictToVariables, List.map_cons,
      List.lookup]
    by_cases h : (name == n')
    · simp only [h, if_true]
      constructor
      · intro hnone
        exact absurd hnone (by simp)
      · intro v hv
        obtain ⟨k, hs, hl⟩ := hwfh
        have hrt := roundtrip_oneD v' k hs hl
        refine ⟨JuliaArrayToVariable (VariableToJuliaArray v'), rfl, ?_, ?_⟩
        · rw [hrt.1]
          cases hv
          rfl
        · rw [hrt.2]
          cases hv
          rfl
    · simp only [h, if_false]
      exact ih hwft

/-- C2 witness: the concrete singleton map with the 1-D variable
x = [5, 7] round-trips to the same shape and data. -/
theorem c2_oneD_roundtrip_witness :
    ∃ w : Variable Int,
      (JuliaDictToVariables (VariablesToJuliaDict
          [("x", ⟨Role.kInput, [2], [5, 7]⟩)])).lookup "x" = some w ∧
      w.shape = (⟨Role.kInput, [2], [5, 7]⟩ : Variable Int).shape ∧
      w.data = (⟨Role.kInput, [2], [5, 7]⟩ : Variable Int).data :=
  (c2_oneD_roundtrip [("x", ⟨Role.kInput, [2], [5, 7]⟩)]
      (by
        intro p hp
        rw [List.mem_singleton] at hp
        subst hp
        exact ⟨2, rfl, rfl⟩)
      "x").2 ⟨Role.kInput, [2], [5, 7]⟩ (by decide)

/-! ## C3 -/

/-- Two strings with the same character data are equal. -/
lemma string_ext {a b : String} (h : a.data = b.data) : a = b := by
  cases a
  cases b
  exact congrArg String.mk (by simpa using h)

/-- `String.mk` undoes `String.data`. -/
lemma string_mk_data (s : String) : String.mk s.data = s := by
  cases s
  rfl

/-- `splitFirstTilde` fails exactly on tilde-free keys. -/
lemma splitFirstTilde_eq_none_iff (l : List Char) :
    splitFirstTilde l = none ↔ '~' ∉ l := by
  induction l with
  | nil => simp [splitFirstTilde]
  | cons c rest ih =>
    by_cases hc : c = '~'
    · subst hc
      simp [splitFirstTilde]
    · rw [show splitFirstTilde (c :: rest)
          = match splitFirstTilde rest with
            | some (p, s) => some (c :: p, s)
            | none => none from by simp [splitFirstTilde, hc]]
      cases hsplit : splitFirstTilde rest with
      | none =>
        have hc' : ¬('~' = c) := fun h => hc h.symm
        simp [List.mem_cons, ih.mp hsplit, hc']
      | some pr =>
        have hmem : '~' ∈ rest := by
          by_contra hnot
          rw [ih.mpr hnot] at hsplit
          cases hsplit
        simp [List.mem_cons, hmem]

/-- `splitFirstTilde` splits at the first tilde: a tilde-free part,
the first tilde, and the entire remainder. -/
lemma splitFirstTilde_append (p s : List Char) (hp : '~' ∉ p) :
    splitFirstTilde (p ++ '~' :: s) = some (p, s) := by
  induction p with
  | nil => simp [splitFirstTilde]
  | cons c cs ih =>
    have hc : ¬(c = '~') := by
      intro h
      subst h
      exact hp (List.mem_cons_self _ _)
    have hcs : '~' ∉ cs := fun h => hp (List.mem_cons_of_mem _ h)
    rw [List.cons_append]
    simp [splitFirstTilde, hc, ih hcs]

/-- Character data of the flat-encoded key `out ++ "~" ++ inp`. -/
lemma data_append_tilde (out inp : String) :
    (out ++ "~" ++ inp).data = out.data ++ '~' :: inp.data := by
  have h1 : (out ++ "~" ++ inp).data = out.data ++ ("~" : String).data
      ++ inp.data := by
    rw [String.data_append, String.data_append]
  have htilde : ("~" : String).data = ['~'] := by decide
  rw [h1, htilde, List.append_assoc]
  rfl

/-- Every list containing a tilde decomposes at its first tilde. -/
lemma exists_first_tilde {l : List Char} (h : '~' ∈ l) :
    ∃ p s, '~' ∉ p ∧ l = p ++ '~' :: s := by
  induction l with
  | nil => cases h
  | cons c rest ih =>
    by_cases hc : c = '~'
    · subst hc
      exact ⟨[], rest, by simp, rfl⟩
    · have hr : '~' ∈ rest := by
        rcases List.mem_cons.mp h with h1 | h2
        · exact absurd h1.symm hc
        · exact h2
      obtain ⟨p, s, hp, hl⟩ := ih hr
      refine ⟨c :: p, s, ?_, by rw [List.cons_append, hl]⟩
      intro hmem
      rcases List.mem_cons.mp hmem with h1 | h2
      · exact hc h1.symm
      · exact hp h2

/-- C3: for every key processed by JuliaDictToPartials, a key containing
no '~' raises the MalformedKey error; otherwise the key is split at the
FIRST occurrence of '~', the part before it becoming the output name and
the entire remainder (which may itself contain '~') the input name of the
PartialKey. -/
theorem c3_partials_key_split (key : String) (a : JuliaArray Int) :
    ('~' ∉ key.data →
      JuliaDictToPartials [(key, a)]
        = Except.error (ConvError.malformedKey key)) ∧
    ('~' ∈ key.data →
      ∃ out inp : String, '~' ∉ out.data ∧ key = out ++ "~" ++ inp ∧
        JuliaDictToPartials [(key, a)]
          = Except.ok [((out, inp), JuliaArrayToVariable a)]) ∧
    (∀ out inp : String, '~' ∉ out.data → key = out ++ "~" ++ inp →
      JuliaDictToPartials [(key, a)]
        = Except.ok [((out, inp), JuliaArrayToVariable a)]) := by
  have hsplit_ok : ∀ out inp : String, '~' ∉ out.data →
      key = out ++ "~" ++ inp →
      JuliaDictToPartials [(key, a)]
        = Except.ok [((out, inp), JuliaArrayToVariable a)] := by
    intro out inp hout hkey
    have hdata : key.data = out.data ++ '~' :: inp.data := by
      rw [hkey]
      exact data_append_tilde out inp
    have hparse : parsePartialKey key = Except.ok (out, inp) := by
      rw [parsePartialKey, hdata, splitFirstTilde_append _ _ hout]
    simp [JuliaDictToPartials, hparse]
  refine ⟨?_, ?_, hsplit_ok⟩
  · intro hno
    have hparse : parsePartialKey key
        = Except.error (ConvError.malformedKey key) := by
      rw [parsePartialKey, (splitFirstTilde_eq_none_iff key.data).mpr hno]
    simp [JuliaDictToPartials, hparse]
  · intro hyes
    obtain ⟨p, s, hp, hps⟩ := exists_first_tilde hyes
    have hkey : key = String.mk p ++ "~" ++ String.mk s := by
      apply string_ext
      rw [hps, data_append_tilde]
    exact ⟨String.mk p, String.mk s, by simpa using hp, hkey,
      hsplit_ok _ _ (by simpa using hp) hkey⟩

/-- C3 witness: "fx" (no tilde) raises MalformedKey, and "f~x" splits
into output "f" and input "x". -/
theorem c3_partials_key_split_witness :
    (JuliaDictToPartials [(("fx" : String), (⟨[1], [9]⟩ : JuliaArray Int))]
      = Except.error (ConvError.malformedKey "fx")) ∧
    (JuliaDictToPartials [(("f~x" : String), (⟨[1], [9]⟩ : JuliaArray Int))]
      = Except.ok [((("f" : String), ("x" : String)),
          JuliaArrayToVariable (⟨[1], [9]⟩ : JuliaArray Int))]) :=
  ⟨(c3_partials_key_split "fx" ⟨[1], [9]⟩).1 (by decide),
   (c3_partials_key_split "f~x" ⟨[1], [9]⟩).2.2 "f" "x" (by decide)
     (by decide)⟩

/-! ## C4, C5, C6 -/

/-- C4 (refuting the claim as stated): EvalString on a faulting
evaluation — e.g. `"undefined_variable_xyz"` raising UndefVarError —
throws its native error but leaves the runtime's exception-occurred state
SET: the source (julia_executor.cpp lines 183-188) never calls
`jl_exception_clear()` on this path, unlike CheckJuliaException and the
LoadJuliaFile failure path. -/
theorem c4_evalstring_leaves_exception_pending :
    EvalString true ⟨none⟩ (JlEvalOutcome.raises ⟨"UndefVarError"⟩)
      = (Except.error "Julia error: UndefVarError",
         ⟨some ⟨"UndefVarError"⟩⟩) ∧
    (EvalString true ⟨none⟩
        (JlEvalOutcome.raises ⟨"UndefVarError"⟩)).2.pending ≠ none := by
  constructor
  · rfl
  · decide

/-- C5: CheckJuliaException is a no-op when no exception is pending; when
one is pending it clears the exception state and throws a native error
carrying the diagnostic string built for the pending exception — and it
throws if and only if an exception was pending. -/
theorem c5_check_and_throw (env : JuliaEnv) (st : JuliaState) :
    ((CheckJuliaException env st).2.pending = none) ∧
    (st.pending = none → CheckJuliaException env st = (Except.ok (), st)) ∧
    (∀ ex, st.pending = some ex →
      CheckJuliaException env st
        = (Except.error (GetJuliaExceptionString env st).1,
           ⟨none⟩)) ∧
    ((∃ msg, (CheckJuliaException env st).1 = Except.error msg)
      ↔ st.pending ≠ none) := by
  obtain ⟨p⟩ := st
  cases p with
  | none => simp [CheckJuliaException]
  | some ex => simp [CheckJuliaException]

/-- C5 witness: with a pending ErrorException the check throws the
diagnostic and clears the state; with no pending exception it is a
no-op. -/
theorem c5_check_and_throw_witness :
    (CheckJuliaException ⟨true, fun _ => SprintOutcome.ok "boom happened"⟩
        ⟨some ⟨"ErrorException"⟩⟩
      = (Except.error (GetJuliaExceptionString
            ⟨true, fun _ => SprintOutcome.ok "boom happened"⟩
            ⟨some ⟨"ErrorException"⟩⟩).1, ⟨none⟩)) ∧
    (CheckJuliaException ⟨true, fun _ => SprintOutcome.ok "boom happened"⟩
        ⟨none⟩
      = (Except.ok (), ⟨none⟩)) :=
  ⟨(c5_check_and_throw ⟨true, fun _ => SprintOutcome.ok "boom happened"⟩
      ⟨some ⟨"ErrorException"⟩⟩).2.2.1 ⟨"ErrorException"⟩ rfl,
   (c5_check_and_throw ⟨true, fun _ => SprintOutcome.ok "boom happened"⟩
      ⟨none⟩).2.1 rfl⟩

/-- C6: when the runtime's own error formatter (`sprint(showerror, ex)`)
itself faults or returns a non-string, GetJuliaExceptionString falls back
to the bare type-name diagnostic of the original exception — the
formatting failure neither propagates (the function still returns) nor
masks the original error, and the formatter's own exception is cleared. -/
theorem c6_formatter_fallback (env : JuliaEnv) (st : JuliaState)
    (ex : JuliaExc) (hpend : st.pending = some ex)
    (havail : env.sprintAvailable = true)
    (hfail : env.sprintShowerror ex = SprintOutcome.nonString
      ∨ ∃ e, env.sprintShowerror ex = SprintOutcome.fault e) :
    (GetJuliaExceptionString env st).1 = ex.typeName ∧
    (GetJuliaExceptionString env st).2.pending = none := by
  obtain ⟨p⟩ := st
  simp only at hpend
  subst hpend
  rcases hfail with hns | ⟨e, hf⟩
  · simp [GetJuliaExceptionString, havail, hns]
  · simp [GetJuliaExceptionString, havail, hf]

/-- C6 witness: a pending StackOverflowError whose formatting returns a
non-string yields the bare type-name diagnostic with the state
cleared. -/
theorem c6_formatter_fallback_witness :
    (GetJuliaExceptionString ⟨true, fun _ => SprintOutcome.nonString⟩
        ⟨some ⟨"StackOverflowError"⟩⟩).1 = "StackOverflowError" ∧
    (GetJuliaExceptionString ⟨true, fun _ => SprintOutcome.nonString⟩
        ⟨some ⟨"StackOverflowError"⟩⟩).2.pending = none :=
  c6_formatter_fallback ⟨true, fun _ => SprintOutcome.nonString⟩
    ⟨some ⟨"StackOverflowError"⟩⟩ ⟨"StackOverflowError"⟩ rfl rfl
    (Or.inl rfl)

/-! ## C7, C8 -/

/-- Invariant of ExecutorLoop runs started after Stop() was signaled:
results published so far plus the wrapped remainder of the queue always
equal the wrapped initial queue (FIFO, nothing lost), and an exited
worker has an empty queue. -/
lemma execInvariant {ε α : Type} (q : List (Except ε α))
    (s : ExecState ε α)
    (h : Relation.ReflTransGen ExecStep ⟨q, true, [], false⟩ s) :
    s.published ++ s.queue.map taskWrapper = q.map taskWrapper ∧
    (s.exited = true → s.queue = []) := by
  induction h with
  | refl => simp
  | tail hab hbc ih =>
    cases hbc with
    | exit h1 h2 h3 =>
      refine ⟨?_, fun _ => h3⟩
      simpa using ih.1
    | run t rest h1 h2 =>
      refine ⟨?_, fun hx => absurd hx (by simp [h1])⟩
      have hq := ih.1
      rw [h2] at hq
      simp only [List.map_cons] at hq
      simpa [List.append_assoc] using hq

/-- C8: once Stop() has been signaled (stop flag set), the worker never
exits while tasks remain: every task enqueued at the stop signal is still
popped in FIFO order and executed to completion (each published result is
the full wrapper result of its task, so an in-flight task is never
preempted), the worker exits only from a state where the stop flag is set
and the queue is empty. -/
theorem c8_stop_drains_queue :
    (∀ (ε α : Type) (q : List (Except ε α)) (s : ExecState ε α),
      Relation.ReflTransGen ExecStep ⟨q, true, [], false⟩ s →
      s.exited = true →
      s.queue = [] ∧ s.published = q.map taskWrapper) ∧
    (∀ (ε α : Type) (s s' : ExecState ε α), ExecStep s s' →
      s'.exited = true →
      s.exited = true ∨ (s.stop = true ∧ s.queue = [])) := by
  constructor
  · intro ε α q s h hex
    have hi := execInvariant q s h
    have hq := hi.2 hex
    refine ⟨hq, ?_⟩
    have hp := hi.1
    rw [hq] at hp
    simpa using hp
  · intro ε α s s' hstep hex
    cases hstep with
    | exit h1 h2 h3 => exact Or.inr ⟨h2, h3⟩
    | run t rest h1 h2 => exact absurd hex (by simp [h1])

/-- C8 witness: from the stopped state with two queued tasks, the worker
runs both in FIFO order and only then exits with the full result list
published. -/
theorem c8_stop_drains_queue_witness :
    (⟨[], true, [Except.ok 1, Except.error "boom"], true⟩
        : ExecState String Nat).queue = [] ∧
    (⟨[], true, [Except.ok 1, Except.error "boom"], true⟩
        : ExecState String Nat).published
      = [Except.ok 1, Except.error "boom"].map taskWrapper := by
  have step1 : ExecStep
      (⟨[Except.ok 1, Except.error "boom"], true, [], false⟩
        : ExecState String Nat)
      ⟨[Except.error "boom"], true, [Except.ok 1], false⟩ :=
    ExecStep.run _ (Except.ok 1) [Except.error "boom"] rfl rfl
  have step2 : ExecStep
      (⟨[Except.error "boom"], true, [Except.ok 1], false⟩
        : ExecState String Nat)
      ⟨[], true, [Except.ok 1, Except.error "boom"], false⟩ :=
    ExecStep.run _ (Except.error "boom") [] rfl rfl
  have step3 : ExecStep
      (⟨[], true, [Except.ok 1, Except.error "boom"], false⟩
        : ExecState String Nat)
      ⟨[], true, [Except.ok 1, Except.error "boom"], true⟩ :=
    ExecStep.exit _ rfl rfl rfl
  have htrace : Relation.ReflTransGen ExecStep
      (⟨[Except.ok 1, Except.error "boom"], true, [], false⟩
        : ExecState String Nat)
      ⟨[], true, [Except.ok 1, Except.error "boom"], true⟩ :=
    Relation.ReflTransGen.head step1
      (Relation.ReflTransGen.head step2
        (Relation.ReflTransGen.single step3))
  exact c8_stop_drains_queue.1 String Nat _ _ htrace rfl

/-- C7: a closure that throws has its exception captured at the point of
execution (the published promise content is exactly the thrown error) and
rethrown by Submit's `future.get()` in the submitting thread's context;
the worker does not exit because of the task's exception and a
subsequently queued task is executed normally. -/
theorem c7_exception_capture_and_survival {ε α : Type} (e : ε)
    (rest : List (Except ε α)) (s : ExecState ε α)
    (hex : s.exited = false) (hq : s.queue = Except.error e :: rest) :
    submitResult (Except.error e : Except ε α) = Except.error e ∧
    ∃ s', ExecStep s s' ∧
      s'.published = s.published ++ [Except.error e] ∧
      s'.exited = false ∧ s'.queue = rest ∧
      (∀ t rest', rest = t :: rest' →
        ∃ s'', ExecStep s' s'' ∧
          s''.published = s'.published ++ [taskWrapper t] ∧
          s''.exited = false) := by
  refine ⟨rfl,
    { s with
        queue := rest
        published := s.published ++ [taskWrapper (Except.error e)] },
    ExecStep.run s _ rest hex hq, rfl, hex, rfl, ?_⟩
  intro t rest' hrest
  refine ⟨_, ExecStep.run _ t rest' hex ?_, rfl, hex⟩
  simpa using hrest

/-- C7 witness: with a throwing task at the queue front followed by a
normal task, Submit rethrows the error, the worker survives and runs the
next task. -/
theorem c7_exception_capture_and_survival_witness :
    submitResult (Except.error "task blew up" : Except String Nat)
      = Except.error "task blew up"
    ∧ ∃ s' : ExecState String Nat, ExecStep
        (⟨[Except.error "task blew up", Except.ok 7], false, [], false⟩
          : ExecState String Nat) s' ∧
      s'.published = [] ++ [Except.error "task blew up"] ∧
      s'.exited = false ∧ s'.queue = [Except.ok 7] ∧
      (∀ t rest', [Except.ok 7] = t :: rest' →
        ∃ s'', ExecStep s' s'' ∧
          s''.published = s'.published ++ [taskWrapper t] ∧
          s''.exited = false) :=
  c7_exception_capture_and_survival "task blew up" [Except.ok 7]
    ⟨[Except.error "task blew up", Except.ok 7], false, [], false⟩ rfl rfl

/-! ## C9 -/

/-- C9: thread adoption is idempotent per thread — constructing the
guard twice performs `jl_adopt_thread` at most once beyond the initial
state, IsAdopted reports true after the first construction and still after
the second, the second construction changes nothing, and on a fresh
thread exactly one registration happens. -/
theorem c9_idempotent_adoption :
    (∀ s : ThreadAdoptState,
      IsAdopted (JuliaThreadGuardCtor s) = true ∧
      IsAdopted (JuliaThreadGuardCtor (JuliaThreadGuardCtor s)) = true ∧
      (JuliaThreadGuardCtor (JuliaThreadGuardCtor s)).adoptCalls
        ≤ s.adoptCalls + 1 ∧
      JuliaThreadGuardCtor (JuliaThreadGuardCtor s)
        = JuliaThreadGuardCtor s) ∧
    (JuliaThreadGuardCtor freshThread = ⟨true, 1⟩ ∧
      JuliaThreadGuardCtor (JuliaThreadGuardCtor freshThread)
        = ⟨true, 1⟩) := by
  constructor
  · intro s
    obtain ⟨a, n⟩ := s
    cases a <;>
      simp [JuliaThreadGuardCtor, AdoptCurrentThread, IsAdopted]
  · exact ⟨by decide, by decide⟩

/-! ## C10 -/

/-- C10: every Variable produced by JuliaDictToVariables and by
JuliaDictToPartials carries role kOutput (julia_convert.h lines 321 and
436) — in particular converting a kInput variable to the managed layout
and back never preserves the input role. -/
theorem c10_decoded_role_is_output :
    (∀ (α : Type) (_inst : Inhabited α)
       (dict : List (String × JuliaArray α)) (name : String)
       (v : Variable α),
      (JuliaDictToVariables dict).lookup name = some v →
      v.role = Role.kOutput) ∧
    (∀ (α : Type) (_inst : Inhabited α)
       (dict : List (String × JuliaArray α))
       (ps : List ((String × String) × Variable α)),
      JuliaDictToPartials dict = Except.ok ps →
      ∀ k v, ps.lookup k = some v → v.role = Role.kOutput) ∧
    ((JuliaArrayToVariable (VariableToJuliaArray
        (⟨Role.kInput, [1], [0]⟩ : Variable Int))).role = Role.kOutput) := by
  refine ⟨?_, ?_, rfl⟩
  · intro α _inst dict name v h
    induction dict with
    | nil => cases h
    | cons hd tl ih =>
      obtain ⟨n, a⟩ := hd
      simp only [JuliaDictToVariables, List.map_cons, List.lookup] at h ih
      by_cases hb : name == n
      · simp only [hb, if_true] at h
        rw [← Option.some_inj.mp h]
        rfl
      · simp only [hb, if_false] at h
        exact ih h
  · intro α _inst dict
    induction dict with
    | nil =>
      intro ps hok k v hl
      simp only [JuliaDictToPartials] at hok
      cases hok
      cases hl
    | cons hd tl ih =>
      intro ps hok k v hl
      obtain ⟨key, a⟩ := hd
      simp only [JuliaDictToPartials] at hok
      cases hp : parsePartialKey key with
      | error e => rw [hp] at hok; cases hok
      | ok oi =>
        rw [hp] at hok
        cases ht : JuliaDictToPartials tl with
        | error e => rw [ht] at hok; cases hok
        | ok tail =>
          rw [ht] at hok
          cases hok
          simp only [List.lookup] at hl
          by_cases hb : k == oi
          · simp only [hb, if_true] at hl
            rw [← Option.some_inj.mp hl]
            rfl
          · simp only [hb, if_false] at hl
            exact ih tail ht k v hl

/-- C10 witness: a decoded singleton dict yields a variable whose role is
kOutput. -/
theorem c10_decoded_role_is_output_witness :
    (JuliaArrayToVariable (⟨[1], [3]⟩ : JuliaArray Int)).role
      = Role.kOutput :=
  c10_decoded_role_is_output.1 Int inferInstance [("y", ⟨[1], [3]⟩)] "y"
    (JuliaArrayToVariable ⟨[1], [3]⟩) (by decide)

end PhiloteJulia
